import Mathlib

/-!
Verification of the repository-analysis and documentation pipeline.

This file gives a shallow embedding of the decision logic of the pipeline:
the contributor aggregation, directory walks, language histogram, dependency
manifest scan of `research_agent.py`; the Kubernetes heuristic and deployment
record of `deployment_agent.py`; the section assembly and file persistence of
`writer_agent.py`; and the CLI entry behaviour of `cli.py`/`main.py`.
Python builtin operations used by that code (`str.splitlines`, `str.lower`,
`os.path.splitext`, `os.path.dirname`, `str(list)`, substring tests) are
modelled at the character-list level, following CPython's semantics.
-/

/- ### Python string primitives -/

/-- Model of Python's `str.lower()` (ASCII case mapping, which is all the
source's needles require). -/
def pyLower (s : String) : String :=
  String.mk (s.toList.map Char.toLower)

/-- `isPre n h` is true when `n` is a leading block of `h`. -/
def isPre : List Char → List Char → Bool
  | [], _ => true
  | _ :: _, [] => false
  | a :: as, b :: bs => a == b && isPre as bs

/-- Model of Python's substring test `needle in hay`: true when `needle`
occurs contiguously in `hay`. -/
def containsSub (needle : List Char) : List Char → Bool
  | [] => needle.isEmpty
  | c :: rest => isPre needle (c :: rest) || containsSub needle (c :: rest).tail

/-- `n` occurs contiguously inside `h`. Propositional form of `containsSub`. -/
def InfixOf (n h : List Char) : Prop := ∃ s t, h = s ++ n ++ t

/-- `n` is a leading block of `h`. -/
def PrefixOf (n h : List Char) : Prop := ∃ t, h = n ++ t

/-- `n` is a trailing block of `h`. -/
def SuffixOf (n h : List Char) : Prop := ∃ s, h = s ++ n

theorem isPre_iff {n h : List Char} : isPre n h = true ↔ PrefixOf n h := by
  induction n generalizing h with
  | nil => simp [isPre, PrefixOf]
  | cons a as ih =>
    cases h with
    | nil =>
      simp only [isPre, PrefixOf]
      constructor
      · intro hfalse; cases hfalse
      · rintro ⟨t, ht⟩; cases ht
    | cons b bs =>
      simp only [isPre, Bool.and_eq_true, beq_iff_eq, ih, PrefixOf]
      constructor
      · rintro ⟨rfl, t, rfl⟩; exact ⟨t, rfl⟩
      · rintro ⟨t, ht⟩
        injection ht with h1 h2
        exact ⟨h1.symm, t, h2⟩

theorem containsSub_iff {n h : List Char} : containsSub n h = true ↔ InfixOf n h := by
  induction h with
  | nil =>
    simp only [containsSub, List.isEmpty_iff, InfixOf]
    constructor
    · rintro rfl; exact ⟨[], [], rfl⟩
    · rintro ⟨s, t, ht⟩
      rcases s <;> rcases n <;> first | rfl | cases ht
  | cons c rest ih =>
    simp only [containsSub, List.tail_cons, Bool.or_eq_true, isPre_iff, ih, InfixOf, PrefixOf]
    constructor
    · rintro (⟨t, ht⟩ | ⟨s, t, ht⟩)
      · exact ⟨[], t, by simpa using ht⟩
      · exact ⟨c :: s, t, by simp [ht]⟩
    · rintro ⟨s, t, hst⟩
      cases s with
      | nil => exact Or.inl ⟨t, by simpa using hst⟩
      | cons x xs =>
        injection hst with h1 h2
        exact Or.inr ⟨xs, t, h2⟩

/-- Model of Python's `str.endswith`. -/
def pyEndswith (s suffix : String) : Bool :=
  containsSub (suffix.toList) s.toList && isPre (suffix.toList.reverse) (s.toList.reverse)

/- ### Contributor aggregation (`research_agent._analyze_contributors`) -/

/-- The author identity of one commit (GitPython's `commit.author`). -/
structure Author where
  name : String
  email : String
deriving DecidableEq, Repr

/-- One row of the contributor list built by `_analyze_contributors`:
`{"name": ..., "email": ..., "commits": ...}`. -/
structure Contributor where
  name : String
  email : String
  commits : Nat
deriving DecidableEq, Repr

/-- The candidate record built for one commit:
`{"name": commit.author.name, "email": commit.author.email, "commits": 1}`. -/
def mkCandidate (a : Author) : Contributor :=
  { name := a.name, email := a.email, commits := 1 }

/-- `contributors[contributors.index(c)]["commits"] += 1`: increment the
`commits` field of the first record equal to `c`. -/
def incFirst : List Contributor → Contributor → List Contributor
  | [], _ => []
  | x :: xs, c =>
    if x = c then { x with commits := x.commits + 1 } :: xs
    else x :: incFirst xs c

/-- The loop body of `_analyze_contributors`: if the candidate record is not
in the list it is appended, otherwise the first equal record's count is
incremented (structural dict equality, `commits` field included). -/
def addCommit (cs : List Contributor) (a : Author) : List Contributor :=
  let c := mkCandidate a
  if c ∈ cs then incFirst cs c else cs ++ [c]

/-- `_analyze_contributors`: fold the loop body over the commits in history
order. -/
def analyzeContributors (commits : List Author) : List Contributor :=
  commits.foldl addCommit []

/-- `_get_basic_info`'s `total_commits`: `sum(1 for _ in repo.iter_commits())`
over the same commit enumeration. -/
def totalCommits (commits : List Author) : Nat :=
  (commits.map (fun _ => 1)).sum

/-- The sum of the `commits` fields over a contributor list. -/
def sumCommits (cs : List Contributor) : Nat :=
  (cs.map (fun c => c.commits)).sum

theorem sumCommits_incFirst {cs : List Contributor} {c : Contributor}
    (h : c ∈ cs) : sumCommits (incFirst cs c) = sumCommits cs + 1 := by
  induction cs with
  | nil => cases h
  | cons x xs ih =>
    by_cases hx : x = c
    · simp [incFirst, hx, sumCommits]
      omega
    · rw [List.mem_cons] at h
      rcases h with h | h
      · exact absurd h.symm hx
      · simp only [incFirst, if_neg hx, sumCommits, List.map_cons, List.sum_cons] at *
        rw [ih h]
        omega

theorem sumCommits_addCommit (cs : List Contributor) (a : Author) :
    sumCommits (addCommit cs a) = sumCommits cs + 1 := by
  simp only [addCommit]
  split
  · next h => exact sumCommits_incFirst h
  · simp [sumCommits, mkCandidate]

theorem sumCommits_foldl (l : List Author) (acc : List Contributor) :
    sumCommits (l.foldl addCommit acc) = sumCommits acc + l.length := by
  induction l generalizing acc with
  | nil => simp
  | cons a l ih =>
    simp only [List.foldl_cons, List.length_cons, ih, sumCommits_addCommit]
    omega

/-- C2: for every commit history, the sum of the `commits` fields over all
records returned by `_analyze_contributors` equals the total commit count
computed by `_get_basic_info` from the same enumeration: each commit either
appends one record with count 1 or increments exactly one record by 1, so the
sum reproduces the total even when duplicate records exist. -/
theorem contributors_sum_eq_total (commits : List Author) :
    sumCommits (analyzeContributors commits) = totalCommits commits := by
  unfold analyzeContributors totalCommits
  have hlen : ∀ l : List Author, (l.map (fun _ => 1)).sum = l.length := by
    intro l
    induction l with
    | nil => rfl
    | cons a l ih =>
      simp only [List.map_cons, List.sum_cons, List.length_cons, ih]
      omega
  rw [sumCommits_foldl, hlen commits]
  simp [sumCommits]

/-- C1: the code violates the uniqueness claim. Three commits by the same
author identity yield two records with the same (name, email) pair: after the
second commit the stored record has count 2, so the third commit's candidate
(count 1) fails the structural-equality membership test and is appended as a
duplicate. -/
theorem contributors_duplicate_pair :
    analyzeContributors
        [⟨"Alice", "alice@example.com"⟩, ⟨"Alice", "alice@example.com"⟩,
         ⟨"Alice", "alice@example.com"⟩]
      = [⟨"Alice", "alice@example.com", 2⟩, ⟨"Alice", "alice@example.com", 1⟩]
    ∧ ¬ ((analyzeContributors
        [⟨"Alice", "alice@example.com"⟩, ⟨"Alice", "alice@example.com"⟩,
         ⟨"Alice", "alice@example.com"⟩]).map
          (fun c => (c.name, c.email))).Nodup := by
  constructor
  · rfl
  · decide

/- ### Python `str.splitlines` and `_analyze_python_dependencies` -/

/-- Core of Python's `str.splitlines()`: split at every line boundary
(`\n`, `\r`, `\r\n`), keeping a (possibly empty) trailing chunk. -/
def splitlinesCore : List Char → List (List Char)
  | [] => [[]]
  | '\r' :: '\n' :: rest => [] :: splitlinesCore rest
  | '\r' :: rest => [] :: splitlinesCore rest
  | '\n' :: rest => [] :: splitlinesCore rest
  | c :: rest =>
    match splitlinesCore rest with
    | [] => [[c]]
    | l :: ls => (c :: l) :: ls

/-- Model of Python's `str.splitlines()`: like `splitlinesCore`, but a string
ending in a line boundary contributes no final empty line, and `""` has no
lines at all. -/
def pySplitlines (s : String) : List String :=
  let ls := splitlinesCore s.toList
  (if ls.getLast? = some [] then ls.dropLast else ls).map (fun l => String.mk l)

/-- The value stored for one manifest file by the dependency scan. -/
inductive DepEntry where
  | parsed (lines : List String)
  | notParsed
deriving DecidableEq, Repr

/-- `_analyze_python_dependencies`: the root `requirements.txt` content (when
the file exists), split by `f.read().splitlines()`; `setup.py` and
`pyproject.toml` recorded as found-but-not-parsed sentinels. -/
def analyzePythonDependencies (reqTxt : Option String)
    (hasSetup hasPyproject : Bool) : List (String × DepEntry) :=
  (match reqTxt with
   | some content => [("requirements.txt", DepEntry.parsed (pySplitlines content))]
   | none => [])
  ++ (if hasSetup then [("setup.py", DepEntry.notParsed)] else [])
  ++ (if hasPyproject then [("pyproject.toml", DepEntry.notParsed)] else [])

/-- The number of non-empty lines of a manifest. -/
def nonEmptyLineCount (s : String) : Nat :=
  ((pySplitlines s).filter (fun l => l != "")).length

/-- C4 counterexample: a `requirements.txt` whose content is
`"requests\n\nflask\n"` has 2 non-empty lines, but the stored list is
`["requests", "", "flask"]` of length 3: `splitlines` keeps empty lines, so
the claimed length N fails. -/
theorem requirements_length_counterexample :
    (analyzePythonDependencies (some "requests\n\nflask\n") false false).lookup
        "requirements.txt" = some (DepEntry.parsed ["requests", "", "flask"])
    ∧ nonEmptyLineCount "requests\n\nflask\n" = 2
    ∧ ((pySplitlines "requests\n\nflask\n").length = 3
        ∧ ¬ (pySplitlines "requests\n\nflask\n").length = 2) := by
  refine ⟨rfl, rfl, rfl, by decide⟩

/-- C4 (amended): the stored list is exactly `content.splitlines()`, whose
length counts every line including empty ones; when the file contains no
empty line this equals the number N of non-empty lines. -/
theorem requirements_length (content : String) (hasSetup hasPyproject : Bool)
    (h : ∀ l ∈ pySplitlines content, l ≠ "") :
    (analyzePythonDependencies (some content) hasSetup hasPyproject).lookup
        "requirements.txt" = some (DepEntry.parsed (pySplitlines content))
    ∧ (pySplitlines content).length = nonEmptyLineCount content := by
  constructor
  · simp [analyzePythonDependencies, List.lookup]
  · unfold nonEmptyLineCount
    rw [List.filter_eq_self.mpr]
    intro a ha
    simpa using h a ha

/-- C4 witness: the amended theorem applied to the two-line manifest
`"requests\nflask"`. -/
theorem requirements_length_witness :
    (analyzePythonDependencies (some "requests\nflask") false false).lookup
        "requirements.txt" = some (DepEntry.parsed (pySplitlines "requests\nflask"))
    ∧ (pySplitlines "requests\nflask").length = nonEmptyLineCount "requests\nflask" :=
  requirements_length "requests\nflask" false false (by decide)

/- ### Pipeline orchestration (`main.generate_documentation`, `cli.main`) -/

/-- `RepoDocumentationCrew.generate_documentation`: after the snapshot is
built, when `include_deployment` is true the deployment config set is merged
into the analysis record under the `deployment` key (a fresh key, appended);
otherwise the record is unchanged. -/
def generateDocumentationRecord (analysisResults : List (String × String))
    (deploymentConfigs : String) (includeDeployment : Bool) :
    List (String × String) :=
  if includeDeployment then analysisResults ++ [("deployment", deploymentConfigs)]
  else analysisResults

/-- The default of `generate_documentation`'s `include_deployment` parameter. -/
def includeDeploymentDefault : Bool := true

/-- `cli.main` invokes `crew.generate_documentation(args.repo, args.output)`
without passing `include_deployment`, so the call uses the default. -/
def cliGenerateDocumentation (analysisResults : List (String × String))
    (deploymentConfigs : String) : List (String × String) :=
  generateDocumentationRecord analysisResults deploymentConfigs
    includeDeploymentDefault

/-- C10: every CLI run executes the deployment merge: the CLI invocation uses
the default `include_deployment = True`, so the `deployment` key is always
appended to the analysis record; the command surface offers no way to disable
it. -/
theorem cli_always_includes_deployment (analysisResults : List (String × String))
    (deploymentConfigs : String) :
    cliGenerateDocumentation analysisResults deploymentConfigs
        = analysisResults ++ [("deployment", deploymentConfigs)]
    ∧ "deployment" ∈ (cliGenerateDocumentation analysisResults
        deploymentConfigs).map Prod.fst := by
  constructor
  · rfl
  · simp [cliGenerateDocumentation, generateDocumentationRecord,
      includeDeploymentDefault]

/- ### Directory walks (`_analyze_structure`, `_detect_languages`) -/

mutual
/-- A directory of the working tree: its name, the plain files directly in it,
and its subdirectories (in `os.walk` listing order). -/
inductive FSTree where
  | node (name : String) (files : List String) (subdirs : FSForest)

/-- A list of sibling directories. -/
inductive FSForest where
  | nil
  | cons (d : FSTree) (ds : FSForest)
end

/-- The name of a directory. -/
def FSTree.name : FSTree → String
  | .node n _ _ => n

/-- The files directly contained in a directory. -/
def FSTree.files : FSTree → List String
  | .node _ fs _ => fs

/-- The subdirectories of a directory. -/
def FSTree.subdirs : FSTree → FSForest
  | .node _ _ ds => ds

mutual
/-- `os.walk` as driven by `_analyze_structure`: each visited directory
contributes one entry (its path components relative to the root, its files);
before descending, the first subdirectory named `.git` is removed from the
descent list (`if ".git" in dirs: dirs.remove(".git")`). -/
def walkFrom (path : List String) : FSTree → List (List String × List String)
  | .node _ files subdirs => (path, files) :: walkForest path true subdirs

/-- Descend into a sibling list in order; while `canPrune` is true the first
directory named `.git` is skipped (and `canPrune` turns false), matching a
single `dirs.remove(".git")` on the mutable list. -/
def walkForest (path : List String) (canPrune : Bool) :
    FSForest → List (List String × List String)
  | .nil => []
  | .cons d ds =>
    if canPrune ∧ d.name = ".git" then walkForest path false ds
    else walkFrom (path ++ [d.name]) d ++ walkForest path canPrune ds
end

/-- `os.path.relpath(root, repo_path)` rendered as the structure key: the
repository root (relpath `"."`) maps to the sentinel `"/"`, deeper directories
to their slash-joined relative path. -/
def renderKey (path : List String) : String :=
  if path = [] then "/" else String.intercalate "/" path

/-- `_analyze_structure`: the mapping from relative directory path to the list
of file names directly contained, in walk order. -/
def analyzeStructure (t : FSTree) : List (String × List String) :=
  (walkFrom [] t).map (fun pf => (renderKey pf.1, pf.2))

mutual
/-- The files seen by `_detect_languages`' walk: `for root, _, files in
os.walk(repo_path)` with no pruning at all. -/
def walkAllFiles : FSTree → List String
  | .node _ files subdirs => files ++ forestAllFiles subdirs

/-- Files of a sibling list, in order. -/
def forestAllFiles : FSForest → List String
  | .nil => []
  | .cons d ds => walkAllFiles d ++ forestAllFiles ds
end

/-- Splits a character list at its last occurrence of `ch`: returns the block
before that occurrence and the block from it on, or `none` when `ch` does not
occur. -/
def splitLastChar (ch : Char) : List Char → Option (List Char × List Char)
  | [] => none
  | c :: rest =>
    match splitLastChar ch rest with
    | some (s, e) => some (c :: s, e)
    | none => if c = ch then some ([], c :: rest) else none

/-- The extension part of CPython's `os.path.splitext` on a bare file name
(no path separators): the block from the last dot on, except that a name
whose every character before that dot is itself a dot has no extension. -/
def pySplitextExt (name : String) : String :=
  match splitLastChar '.' name.toList with
  | none => ""
  | some (stem, ext) =>
    if stem.any (fun c => c != '.') then String.mk ext else ""

/-- Python dict insert-or-increment `extensions[ext] = extensions.get(ext, 0)
+ 1` on an insertion-ordered association list: an existing key keeps its
position, a new key is appended. -/
def dictIncr : List (String × Nat) → String → List (String × Nat)
  | [], k => [(k, 1)]
  | (k', v) :: rest, k =>
    if k' = k then (k', v + 1) :: rest else (k', v) :: dictIncr rest k

/-- The loop body of `_detect_languages`: lowercase the extension and, when it
is non-empty, bump its bucket. -/
def extStep (m : List (String × Nat)) (file : String) : List (String × Nat) :=
  let ext := pyLower (pySplitextExt file)
  if ext = "" then m else dictIncr m ext

/-- `_detect_languages`: bucket every walked file (no `.git` pruning) by
lowercase extension, skipping files without one. -/
def detectLanguages (t : FSTree) : List (String × Nat) :=
  (walkAllFiles t).foldl extStep []

/- ### C6: the `.git` directory never appears in the structure mapping -/

/-- How many directories of a sibling list are named `.git`. On a real file
system sibling names are distinct, so this is at most 1. -/
def FSForest.gitCount : FSForest → Nat
  | .nil => 0
  | .cons d ds => (if d.name = ".git" then 1 else 0) + ds.gitCount

mutual
/-- File-system well-formedness, restricted to what the pruning argument
needs: no plain file is named `.git`, and no directory has two sibling
subdirectories named `.git` — true of every real working tree, where the
version-control metadata entry is a single directory. -/
def gitWellFormed : FSTree → Bool
  | .node _ files subdirs =>
    decide (".git" ∉ files) && decide (subdirs.gitCount ≤ 1)
      && forestWellFormed subdirs

/-- `gitWellFormed` for every directory of a sibling list. -/
def forestWellFormed : FSForest → Bool
  | .nil => true
  | .cons d ds => gitWellFormed d && forestWellFormed ds
end

mutual
theorem walkFrom_gitFree (path : List String) (t : FSTree)
    (hp : ".git" ∉ path) (hw : gitWellFormed t = true) :
    ∀ pf ∈ walkFrom path t, ".git" ∉ pf.1 ∧ ".git" ∉ pf.2 := by
  cases t with
  | node n files subdirs =>
    simp only [gitWellFormed, Bool.and_eq_true, decide_eq_true_eq] at hw
    intro pf hpf
    simp only [walkFrom, List.mem_cons] at hpf
    rcases hpf with rfl | hpf
    · exact ⟨hp, hw.1.1⟩
    · refine walkForest_gitFree path true subdirs hp hw.2 ?_ pf hpf
      simpa using hw.1.2

theorem walkForest_gitFree (path : List String) (canPrune : Bool)
    (ds : FSForest) (hp : ".git" ∉ path) (hw : forestWellFormed ds = true)
    (hc : ds.gitCount ≤ if canPrune then 1 else 0) :
    ∀ pf ∈ walkForest path canPrune ds, ".git" ∉ pf.1 ∧ ".git" ∉ pf.2 := by
  cases ds with
  | nil =>
    intro pf hpf
    simp [walkForest] at hpf
  | cons d ds =>
    simp only [forestWellFormed, Bool.and_eq_true] at hw
    simp only [FSForest.gitCount] at hc
    intro pf hpf
    simp only [walkForest] at hpf
    split at hpf
    · next hgit =>
      refine walkForest_gitFree path false ds hp hw.2 ?_ pf hpf
      rw [if_pos hgit.2, hgit.1, if_pos rfl] at hc
      show ds.gitCount ≤ 0
      omega
    · next hgit =>
      rcases List.mem_append.mp hpf with hpf | hpf
      · have hd : d.name ≠ ".git" := by
          intro hnm
          rcases Bool.eq_false_or_eq_true canPrune with hcp | hcp
          · exact hgit ⟨hcp, hnm⟩
          · rw [hcp] at hc
            simp [hnm] at hc
        have hp2 : ".git" ∉ path ++ [d.name] := by
          intro hmem
          rcases List.mem_append.mp hmem with hmem | hmem
          · exact hp hmem
          · simp only [List.mem_singleton] at hmem
            exact hd hmem.symm
        exact walkFrom_gitFree (path ++ [d.name]) d hp2 hw.1 pf hpf
      · refine walkForest_gitFree path canPrune ds hp hw.2 ?_ pf hpf
        exact le_trans (Nat.le_add_left _ _) hc
end

/-- C6: for every well-formed working tree (the `.git` name is used only by
single metadata directories, never by plain files), `.git` appears nowhere in
the structure mapping returned by `_analyze_structure`: not as a component of
any directory-path key and not among the file-name values, because the walk
removes a directory named `.git` from the descent list at every level before
descending into it. -/
theorem structure_never_contains_git (t : FSTree)
    (hw : gitWellFormed t = true) :
    (∀ pf ∈ walkFrom [] t, ".git" ∉ pf.1 ∧ ".git" ∉ pf.2)
    ∧ ∀ kv ∈ analyzeStructure t, ".git" ∉ kv.2 := by
  have h := walkFrom_gitFree [] t (by simp) hw
  refine ⟨h, ?_⟩
  intro kv hkv
  simp only [analyzeStructure, List.mem_map] at hkv
  rcases hkv with ⟨pf, hpf, rfl⟩
  exact (h pf hpf).2

/-- C6 witness: the theorem applied to a concrete tree holding a `.git`
metadata directory with content. -/
theorem structure_never_contains_git_witness :
    gitWellFormed (FSTree.node "repo" ["a.py"]
        (.cons (.node ".git" ["HEAD"] .nil) .nil)) = true
    ∧ (".git" ∉ ([] : List String) ∧ ".git" ∉ ["a.py"]) :=
  ⟨rfl,
    (structure_never_contains_git
        (FSTree.node "repo" ["a.py"] (.cons (.node ".git" ["HEAD"] .nil) .nil))
        rfl).1 ([], ["a.py"]) (by decide)⟩

/- ### C7: histogram keys are non-empty lowercased extensions -/

theorem pyLower_eq_empty {s : String} : pyLower s = "" ↔ s = "" := by
  constructor
  · intro h
    have h1 : s.toList.map Char.toLower = [] := by
      have := congrArg String.toList h
      simpa [pyLower] using this
    have h2 : s.toList = [] := by
      cases hs : s.toList with
      | nil => rfl
      | cons c cs => rw [hs] at h1; cases h1
    cases s with
    | mk data =>
      have : data = [] := h2
      rw [this]
  · rintro rfl
    rfl

theorem dictIncr_keys (m : List (String × Nat)) (k k' : String)
    (h : k' ∈ (dictIncr m k).map Prod.fst) :
    k' ∈ m.map Prod.fst ∨ k' = k := by
  induction m with
  | nil => simpa [dictIncr] using h
  | cons p rest ih =>
    rcases p with ⟨pk, pv⟩
    by_cases hpk : pk = k
    · rw [dictIncr, if_pos hpk] at h
      simp only [List.map_cons, List.mem_cons] at h ⊢
      tauto
    · rw [dictIncr, if_neg hpk] at h
      simp only [List.map_cons, List.mem_cons] at h ⊢
      rcases h with h | h
      · tauto
      · rcases ih h with h | h <;> tauto

theorem foldl_extStep_keys (l : List String) (acc : List (String × Nat))
    (k : String) (h : k ∈ (l.foldl extStep acc).map Prod.fst) :
    k ∈ acc.map Prod.fst
      ∨ ∃ f ∈ l, pySplitextExt f ≠ "" ∧ k = pyLower (pySplitextExt f) := by
  induction l generalizing acc with
  | nil => exact Or.inl (by simpa using h)
  | cons f l ih =>
    rw [List.foldl_cons] at h
    rcases ih (extStep acc f) h with h1 | ⟨g, hg, hge, hgk⟩
    · rw [extStep] at h1
      split at h1
      · exact Or.inl h1
      · next hne =>
        rcases dictIncr_keys acc _ k h1 with h2 | h2
        · exact Or.inl h2
        · refine Or.inr ⟨f, List.mem_cons_self f l, ?_, h2⟩
          intro h0
          exact hne (by rw [h0]; rfl)
    · exact Or.inr ⟨g, List.mem_cons_of_mem f hg, hge, hgk⟩

/-- C7: every key of the histogram returned by `_detect_languages` is a
non-empty string (files whose names yield an empty extension are skipped by
the `if ext:` guard), and every key is some walked file's extension
lowercased, including its leading separator. -/
theorem histogram_keys (t : FSTree) :
    ∀ kv ∈ detectLanguages t,
      kv.1 ≠ ""
        ∧ ∃ f ∈ walkAllFiles t,
            pySplitextExt f ≠ "" ∧ kv.1 = pyLower (pySplitextExt f) := by
  intro kv hkv
  have hk : kv.1 ∈ (detectLanguages t).map Prod.fst :=
    List.mem_map_of_mem Prod.fst hkv
  rw [detectLanguages] at hk
  rcases foldl_extStep_keys (walkAllFiles t) [] kv.1 hk with h | ⟨f, hf, hne, hkeq⟩
  · simp at h
  · refine ⟨?_, f, hf, hne, hkeq⟩
    rw [hkeq]
    intro h0
    exact hne (pyLower_eq_empty.mp h0)

/-- C7 witness: the theorem applied at the single-file tree `["a.PY"]`, whose
histogram is `[(".py", 1)]`. -/
theorem histogram_keys_witness :
    ((".py", 1) : String × Nat).1 ≠ ""
      ∧ ∃ f ∈ walkAllFiles (FSTree.node "repo" ["a.PY"] .nil),
          pySplitextExt f ≠ ""
            ∧ ((".py", 1) : String × Nat).1 = pyLower (pySplitextExt f) :=
  histogram_keys (FSTree.node "repo" ["a.PY"] .nil) (".py", 1) (by decide)

/- ### C5: end-to-end scenario -/

/-- `analyze_repository`, restricted to its structurally-specified parts: the
structure mapping, the language histogram, and the contributor list (the
remaining fields are identity data and free text from the generative
service). -/
def analyzeRepository (t : FSTree) (commits : List Author) :
    List (String × List String) × List (String × Nat) × List Contributor :=
  (analyzeStructure t, detectLanguages t, analyzeContributors commits)

theorem foldl_extStep_extless (l : List String) (m : List (String × Nat))
    (h : ∀ f ∈ l, pySplitextExt f = "") : l.foldl extStep m = m := by
  induction l generalizing m with
  | nil => rfl
  | cons f l ih =>
    rw [List.foldl_cons]
    have hf : pyLower (pySplitextExt f) = "" := by
      rw [h f (List.mem_cons_self f l)]
      rfl
    have hstep : extStep m f = m := by
      simp only [extStep]
      rw [hf, if_pos rfl]
    rw [hstep]
    exact ih m (fun g hg => h g (List.mem_cons_of_mem f hg))

/-- C5 counterexample: for the claimed one-commit repository, when the
version-control metadata directory contains a hook sample file (as a real
`.git` does), the language histogram is not `{".py": 2}`: `_detect_languages`
walks the whole tree without pruning `.git`, so `.sample` is also counted.
The structure mapping and the contributor list still match the claim. -/
theorem endToEnd_counterexample :
    analyzeRepository
        (FSTree.node "repo" ["a.py", "b.py", "README"]
          (.cons (.node ".git" ["HEAD", "config"]
            (.cons (.node "hooks" ["pre-commit.sample"] .nil) .nil)) .nil))
        [⟨"Alice", "alice@example.com"⟩]
      = ([("/", ["a.py", "b.py", "README"])], [(".py", 2), (".sample", 1)],
          [⟨"Alice", "alice@example.com", 1⟩])
    ∧ ¬ detectLanguages
        (FSTree.node "repo" ["a.py", "b.py", "README"]
          (.cons (.node ".git" ["HEAD", "config"]
            (.cons (.node "hooks" ["pre-commit.sample"] .nil) .nil)) .nil))
        = [(".py", 2)] :=
  ⟨rfl, by decide⟩

/-- C5 (amended): for the one-commit repository with root files `a.py`,
`b.py`, `README` and a metadata directory none of whose files carries an
extension, `analyze_repository` yields structure mapping
`{"/": ["a.py", "b.py", "README"]}`, histogram `{".py": 2}`, and one
contributor record with count 1; the histogram clause needs the extra
proviso because the language walk does not prune `.git`. -/
theorem endToEnd_scenario (gitSub : FSTree) (a : Author)
    (hname : gitSub.name = ".git")
    (hext : ∀ f ∈ walkAllFiles gitSub, pySplitextExt f = "") :
    analyzeRepository
        (FSTree.node "repo" ["a.py", "b.py", "README"] (.cons gitSub .nil)) [a]
      = ([("/", ["a.py", "b.py", "README"])], [(".py", 2)],
          [{ name := a.name, email := a.email, commits := 1 }]) := by
  simp only [analyzeRepository, Prod.mk.injEq]
  refine ⟨?_, ?_, ?_⟩
  · simp [analyzeStructure, walkFrom, walkForest, hname, renderKey]
  · rw [detectLanguages]
    have hw : walkAllFiles (FSTree.node "repo" ["a.py", "b.py", "README"]
          (.cons gitSub .nil))
        = ["a.py", "b.py", "README"] ++ walkAllFiles gitSub := by
      simp [walkAllFiles, forestAllFiles]
    rw [hw, List.foldl_append]
    have h1 : ["a.py", "b.py", "README"].foldl extStep ([] : List (String × Nat))
        = [(".py", 2)] := rfl
    rw [h1]
    exact foldl_extStep_extless _ _ hext
  · rfl

/-- C5 witness: the amended theorem applied to a metadata directory holding
only the extension-less files `HEAD` and `config`. -/
theorem endToEnd_scenario_witness :
    ((FSTree.node ".git" ["HEAD", "config"] .nil).name = ".git"
      ∧ ∀ f ∈ walkAllFiles (FSTree.node ".git" ["HEAD", "config"] .nil),
          pySplitextExt f = "")
    ∧ analyzeRepository
        (FSTree.node "repo" ["a.py", "b.py", "README"]
          (.cons (FSTree.node ".git" ["HEAD", "config"] .nil) .nil))
        [⟨"Bob", "bob@example.com"⟩]
      = ([("/", ["a.py", "b.py", "README"])], [(".py", 2)],
          [⟨"Bob", "bob@example.com", 1⟩]) :=
  ⟨⟨rfl, by decide⟩,
    endToEnd_scenario (FSTree.node ".git" ["HEAD", "config"] .nil)
      ⟨"Bob", "bob@example.com"⟩ rfl (by decide)⟩

/- ### C3: deployment configuration and the Kubernetes heuristic -/

/-- The element body of Python's `str(...)` on a list of strings: each element
wrapped in single quotes, elements joined by a comma and a space. (For names
containing quote characters CPython switches quoting style, but that affects
neither the occurrence of a quote-free needle inside an element nor the
quote-bearing separators, so containment tests agree.) -/
def reprBody : List (List Char) → List Char
  | [] => []
  | [f] => '\'' :: (f ++ ['\''])
  | f :: g :: fs => ('\'' :: (f ++ ['\''])) ++ (',' :: ' ' :: reprBody (g :: fs))

/-- Python's `str(...)` on a list of strings: the quoted, comma-joined body in
square brackets. -/
def reprChars (ls : List (List Char)) : List Char :=
  '[' :: (reprBody ls ++ [']'])

/-- `str(files)` for a Python list of file-name strings. -/
def pyStrListRepr (fs : List String) : String :=
  String.mk (reprChars (fs.map String.toList))

/-- `_needs_kubernetes`: `any('kubernetes' in str(file).lower() for file in
analysis.get('structure', {}).values())` — note `file` ranges over the
structure mapping's VALUES, each a whole list of file names rendered with
`str(...)` — or `'microservices' in str(architecture).lower()`. -/
def needsKubernetes (fileTree : List (String × List String))
    (architecture : String) : Bool :=
  (fileTree.map Prod.snd).any
      (fun files =>
        containsSub "kubernetes".toList (pyLower (pyStrListRepr files)).toList)
    || containsSub "microservices".toList (pyLower architecture).toList

/-- A value of the deployment config dict: generated text or Python `None`. -/
inductive ConfigVal where
  | text (s : String)
  | noneVal
deriving DecidableEq, Repr

/-- `generate_deployment_config`: all four keys are always inserted; the
`k8s` key holds generated text when `_needs_kubernetes` fires and `None`
otherwise. The texts produced by the generative service are parameters. -/
def generateDeploymentConfig (genDocker genK8s genCiCd genEnv : String)
    (fileTree : List (String × List String)) (architecture : String) :
    List (String × ConfigVal) :=
  [("docker", ConfigVal.text genDocker),
   ("k8s",
     if needsKubernetes fileTree architecture then ConfigVal.text genK8s
     else ConfigVal.noneVal),
   ("ci_cd", ConfigVal.text genCiCd),
   ("env_vars", ConfigVal.text genEnv)]

/-- The Kubernetes-need heuristic as the claim words it: some file's path in
the structure mapping — directory key joined with file name — contains
"kubernetes" case-insensitively, or the architecture text contains
"microservices" case-insensitively. -/
def specNeedsKubernetes (fileTree : List (String × List String))
    (architecture : String) : Bool :=
  fileTree.any (fun kv => kv.2.any (fun f =>
      containsSub "kubernetes".toList
        (pyLower (if kv.1 = "/" then f else kv.1 ++ "/" ++ f)).toList))
    || containsSub "microservices".toList (pyLower architecture).toList

/-- C3 counterexample: a repository whose only Kubernetes mention is a
DIRECTORY named `kubernetes` (file `kubernetes/deploy.yaml`). The claim's
heuristic (file path contains "kubernetes") fires, but `_needs_kubernetes`
only inspects the structure mapping's value lists (file names), so the code
returns false and stores `None` under the ever-present `k8s` key. -/
theorem k8s_heuristic_counterexample :
    specNeedsKubernetes [("kubernetes", ["deploy.yaml"])] "layered" = true
    ∧ needsKubernetes [("kubernetes", ["deploy.yaml"])] "layered" = false
    ∧ generateDeploymentConfig "D" "K" "C" "E"
        [("kubernetes", ["deploy.yaml"])] "layered"
      = [("docker", ConfigVal.text "D"), ("k8s", ConfigVal.noneVal),
         ("ci_cd", ConfigVal.text "C"), ("env_vars", ConfigVal.text "E")] :=
  ⟨by decide, by decide, rfl⟩

theorem infixOf_append {n l1 l2 : List Char} (h : InfixOf n (l1 ++ l2)) :
    InfixOf n l1 ∨ InfixOf n l2
      ∨ ∃ a b, n = a ++ b ∧ a ≠ [] ∧ b ≠ [] ∧ SuffixOf a l1 ∧ PrefixOf b l2 := by
  rcases h with ⟨s, t, hst⟩
  rw [List.append_assoc] at hst
  rcases List.append_eq_append_iff.mp hst with ⟨x, hx1, hx2⟩ | ⟨y, hy1, hy2⟩
  · refine Or.inr (Or.inl ⟨x, t, ?_⟩)
    rw [hx2, List.append_assoc]
  · rcases List.append_eq_append_iff.mp hy2 with ⟨u, hu1, hu2⟩ | ⟨v, hv1, hv2⟩
    · refine Or.inl ⟨s, u, ?_⟩
      rw [hy1, hu1, List.append_assoc]
    · by_cases hy0 : y = []
      · subst hy0
        simp only [List.nil_append] at hv1
        refine Or.inr (Or.inl ⟨[], t, ?_⟩)
        rw [hv2, hv1]
        simp
      · by_cases hv0 : v = []
        · subst hv0
          rw [List.append_nil] at hv1
          refine Or.inl ⟨s, [], ?_⟩
          rw [hy1, hv1, List.append_nil]
        · exact Or.inr (Or.inr ⟨y, v, hv1, hy0, hv0, ⟨s, hy1⟩, ⟨t, hv2⟩⟩)

theorem infixOf_nil {n : List Char} (h : InfixOf n []) : n = [] := by
  rcases h with ⟨s, t, hst⟩
  have h2 := hst.symm
  simp only [List.append_eq_nil] at h2
  exact h2.1.2

theorem infixOf_single {n : List Char} {q : Char} (h : InfixOf n [q]) :
    n = [] ∨ n = [q] := by
  rcases h with ⟨s, t, hst⟩
  cases s with
  | cons x xs =>
    injection hst with h1 h2
    have h2 := h2.symm
    simp only [List.append_eq, List.append_eq_nil] at h2
    exact Or.inl h2.1.2
  | nil =>
    simp only [List.nil_append] at hst
    cases n with
    | nil => exact Or.inl rfl
    | cons y ys =>
      injection hst with h1 h2
      have h2 := h2.symm
      simp only [List.append_eq, List.append_eq_nil] at h2
      right
      rw [h1, h2.1]

theorem suffixOf_single {a : List Char} {q : Char} (h : SuffixOf a [q])
    (ha : a ≠ []) : a = [q] := by
  rcases h with ⟨s, hs⟩
  cases s with
  | nil => simpa using hs.symm
  | cons x xs =>
    injection hs with h1 h2
    have h2 := h2.symm
    simp only [List.append_eq, List.append_eq_nil] at h2
    exact absurd h2.2 ha

theorem prefixOf_cons_mem {b : List Char} {q : Char} {l : List Char}
    (h : PrefixOf b (q :: l)) (hb : b ≠ []) : q ∈ b := by
  rcases h with ⟨t, ht⟩
  cases b with
  | nil => exact absurd rfl hb
  | cons x xs =>
    injection ht with h1 h2
    rw [h1]
    exact List.mem_cons_self x xs

theorem infixOf_split_at {n l1 l2 : List Char} {q : Char} (hq : q ∉ n)
    (h : InfixOf n (l1 ++ q :: l2)) : InfixOf n l1 ∨ InfixOf n l2 := by
  rcases infixOf_append h with h1 | h1 | ⟨a, b, hab, ha, hb, hsa, hpb⟩
  · exact Or.inl h1
  · have h1b : InfixOf n ([q] ++ l2) := h1
    rcases infixOf_append h1b with h2 | h2 | ⟨a, b, hab, ha, hb, hsa, hpb⟩
    · rcases infixOf_single h2 with rfl | rfl
      · exact Or.inl ⟨[], l1, by simp⟩

      · exact absurd (List.mem_singleton_self q) hq
    · exact Or.inr h2
    · have hA := suffixOf_single hsa ha
      refine absurd ?_ hq
      rw [hab, hA]
      simp
  · have hB := prefixOf_cons_mem hpb hb
    refine absurd ?_ hq
    rw [hab]
    simp [hB]

theorem infixOf_trans {a b c : List Char} (h1 : InfixOf a b)
    (h2 : InfixOf b c) : InfixOf a c := by
  rcases h1 with ⟨s1, t1, hb⟩
  rcases h2 with ⟨s2, t2, hc⟩
  refine ⟨s2 ++ s1, t1 ++ t2, ?_⟩
  rw [hc, hb]
  simp [List.append_assoc]

theorem reprBody_infix {n : List Char} (hq : '\'' ∉ n) (hcm : ',' ∉ n)
    (hsp : ' ' ∉ n) (hn : n ≠ []) :
    ∀ fs, InfixOf n (reprBody fs) → ∃ f ∈ fs, InfixOf n f
  | [] => fun h => absurd (infixOf_nil h) hn
  | [f] => by
    intro h
    have h0 : InfixOf n ([] ++ '\'' :: (f ++ '\'' :: [])) := by
      simpa [reprBody] using h
    rcases infixOf_split_at hq h0 with h1 | h1
    · exact absurd (infixOf_nil h1) hn
    · rcases infixOf_split_at hq h1 with h2 | h2
      · exact ⟨f, List.mem_singleton_self f, h2⟩
      · exact absurd (infixOf_nil h2) hn
  | f :: g :: fs => by
    intro h
    have h0 : InfixOf n
        ([] ++ '\'' :: (f ++ '\'' :: (',' :: ' ' :: reprBody (g :: fs)))) := by
      simpa [reprBody] using h
    rcases infixOf_split_at hq h0 with h1 | h1
    · exact absurd (infixOf_nil h1) hn
    · rcases infixOf_split_at hq h1 with h2 | h2
      · exact ⟨f, List.mem_cons_self f _, h2⟩
      · have h2b : InfixOf n ([] ++ ',' :: (' ' :: reprBody (g :: fs))) := h2
        rcases infixOf_split_at hcm h2b with h3 | h3
        · exact absurd (infixOf_nil h3) hn
        · have h3b : InfixOf n ([] ++ ' ' :: reprBody (g :: fs)) := h3
          rcases infixOf_split_at hsp h3b with h4 | h4
          · exact absurd (infixOf_nil h4) hn
          · rcases reprBody_infix hq hcm hsp hn (g :: fs) h4 with ⟨f2, hf2, hinf⟩
            exact ⟨f2, List.mem_cons_of_mem f hf2, hinf⟩

theorem mem_reprBody {f : List Char} : ∀ fs, f ∈ fs → InfixOf f (reprBody fs)
  | [], h => absurd h (List.not_mem_nil f)
  | [g], h => by
    have heq : f = g := List.mem_singleton.mp h
    subst heq
    exact ⟨['\''], ['\''], by simp [reprBody]⟩
  | g :: g2 :: fs, h => by
    rcases List.mem_cons.mp h with heq | h2
    · subst heq
      exact ⟨['\''], '\'' :: ',' :: ' ' :: reprBody (g2 :: fs), by simp [reprBody]⟩
    · rcases mem_reprBody (g2 :: fs) h2 with ⟨s, t, hst⟩
      exact ⟨('\'' :: (g ++ ['\''])) ++ ',' :: ' ' :: s, t, by simp [reprBody, hst]⟩

theorem reprChars_infix {n : List Char} (hq : '\'' ∉ n) (hcm : ',' ∉ n)
    (hsp : ' ' ∉ n) (hlb : '[' ∉ n) (hrb : ']' ∉ n) (hn : n ≠ [])
    (fs : List (List Char)) (h : InfixOf n (reprChars fs)) :
    ∃ f ∈ fs, InfixOf n f := by
  have h0 : InfixOf n ([] ++ '[' :: (reprBody fs ++ ']' :: [])) := by
    simpa [reprChars] using h
  rcases infixOf_split_at hlb h0 with h1 | h1
  · exact absurd (infixOf_nil h1) hn
  · rcases infixOf_split_at hrb h1 with h2 | h2
    · exact reprBody_infix hq hcm hsp hn fs h2
    · exact absurd (infixOf_nil h2) hn

theorem mem_reprChars {f : List Char} (fs : List (List Char)) (h : f ∈ fs) :
    InfixOf f (reprChars fs) := by
  have hb := mem_reprBody fs h
  have hc : InfixOf (reprBody fs) (reprChars fs) :=
    ⟨['['], [']'], by simp [reprChars]⟩
  exact infixOf_trans hb hc

theorem map_toLower_reprBody :
    ∀ ls, (reprBody ls).map Char.toLower
      = reprBody (ls.map (List.map Char.toLower))
  | [] => rfl
  | [f] => by
    have hq : Char.toLower '\'' = '\'' := by decide
    simp [reprBody, hq]
  | f :: g :: fs => by
    have hq : Char.toLower '\'' = '\'' := by decide
    have hcm : Char.toLower ',' = ',' := by decide
    have hsp : Char.toLower ' ' = ' ' := by decide
    simp [reprBody, hq, hcm, hsp, map_toLower_reprBody (g :: fs)]

theorem map_toLower_reprChars (ls : List (List Char)) :
    (reprChars ls).map Char.toLower
      = reprChars (ls.map (List.map Char.toLower)) := by
  have hlb : Char.toLower '[' = '[' := by decide
  have hrb : Char.toLower ']' = ']' := by decide
  simp [reprChars, hlb, hrb, map_toLower_reprBody ls]

theorem containsSub_lower_repr (files : List String) :
    containsSub "kubernetes".toList (pyLower (pyStrListRepr files)).toList
        = true
      ↔ ∃ f ∈ files,
          containsSub "kubernetes".toList (pyLower f).toList = true := by
  rw [containsSub_iff]
  have heq : (pyLower (pyStrListRepr files)).toList
      = reprChars (files.map (fun f => (pyLower f).toList)) := by
    show (reprChars (files.map String.toList)).map Char.toLower = _
    rw [map_toLower_reprChars]
    congr 1
    rw [List.map_map]
    rfl
  rw [heq]
  constructor
  · intro h
    rcases reprChars_infix (by decide) (by decide) (by decide) (by decide)
        (by decide) (by decide) _ h with ⟨lf, hlf, hinf⟩
    rcases List.mem_map.mp hlf with ⟨f, hf, rfl⟩
    exact ⟨f, hf, containsSub_iff.mpr hinf⟩
  · rintro ⟨f, hf, hc⟩
    exact infixOf_trans (containsSub_iff.mp hc)
      (mem_reprChars _ (List.mem_map_of_mem _ hf))

/-- C3 (amended): the `k8s` entry is always present in the returned config
dict; its value is the generated Kubernetes config exactly when
`_needs_kubernetes` fires and `None` otherwise, and the heuristic is true if
and only if some file NAME in the structure mapping's value lists contains
"kubernetes" case-insensitively (directory-path keys are never examined), or
the architecture summary contains "microservices" case-insensitively. -/
theorem k8s_field_characterization (genDocker genK8s genCiCd genEnv : String)
    (fileTree : List (String × List String)) (architecture : String) :
    (generateDeploymentConfig genDocker genK8s genCiCd genEnv fileTree
        architecture).lookup "k8s"
      = some (if needsKubernetes fileTree architecture
              then ConfigVal.text genK8s else ConfigVal.noneVal)
    ∧ (needsKubernetes fileTree architecture = true
        ↔ (∃ files ∈ fileTree.map Prod.snd, ∃ f ∈ files,
              containsSub "kubernetes".toList (pyLower f).toList = true)
          ∨ containsSub "microservices".toList
              (pyLower architecture).toList = true) := by
  constructor
  · rfl
  · rw [needsKubernetes, Bool.or_eq_true, List.any_eq_true]
    constructor
    · rintro (⟨files, hfiles, hc⟩ | hm)
      · exact Or.inl ⟨files, hfiles, (containsSub_lower_repr files).mp hc⟩
      · exact Or.inr hm
    · rintro (⟨files, hfiles, hex⟩ | hm)
      · exact Or.inl ⟨files, hfiles, (containsSub_lower_repr files).mpr hex⟩
      · exact Or.inr hm

/- ### C8: document assembly (`writer_agent._combine_sections`) -/

/-- The section keys built by `generate_documentation` and expected by the
top-level template: the six fixed sections, plus `deployment` when the
deployment stage ran. -/
def expectedSectionKeys (withDeployment : Bool) : List String :=
  ["overview", "architecture", "code_analysis", "structure", "contributors",
   "dependencies"] ++ (if withDeployment then ["deployment"] else [])

/-- Modelled from the spec: the top-level template `main.md.j2` rendered by
`_combine_sections` is not among the sources (no `templates` directory is
shipped). Per the spec, assembly iterates the expected section keys in a
fixed template-defined order, concatenating their rendered text, and an
absent expected section is a template-rendering failure, not a skip. -/
def combineSections (withDeployment : Bool)
    (sections : List (String × String)) : Except String String :=
  if (expectedSectionKeys withDeployment).all
      (fun k => (sections.lookup k).isSome) then
    Except.ok (String.intercalate "\n\n"
      ((expectedSectionKeys withDeployment).map
        (fun k => (sections.lookup k).getD "")))
  else Except.error "template rendering failed: missing section"

/-- C8: document assembly fails (returns a template-rendering error rather
than skipping) whenever any expected section key is absent from the sections
mapping passed to `_combine_sections`. -/
theorem combine_fails_on_missing_section (withDeployment : Bool)
    (sections : List (String × String)) (k : String)
    (hk : k ∈ expectedSectionKeys withDeployment)
    (hmiss : sections.lookup k = none) :
    combineSections withDeployment sections
      = Except.error "template rendering failed: missing section" := by
  rw [combineSections, if_neg]
  intro hall
  rw [List.all_eq_true] at hall
  have := hall k hk
  rw [hmiss] at this
  cases this

/-- C8 witness: assembling with the deployment stage included but the
`deployment` section absent fails. -/
theorem combine_fails_on_missing_section_witness :
    ("deployment" ∈ expectedSectionKeys true
        ∧ ([("overview", "o"), ("architecture", "a"), ("code_analysis", "c"),
            ("structure", "s"), ("contributors", "n"),
            ("dependencies", "d")].lookup "deployment"
          = (none : Option String)))
    ∧ combineSections true
        [("overview", "o"), ("architecture", "a"), ("code_analysis", "c"),
         ("structure", "s"), ("contributors", "n"), ("dependencies", "d")]
      = Except.error "template rendering failed: missing section" :=
  ⟨⟨by decide, rfl⟩,
    combine_fails_on_missing_section true
      [("overview", "o"), ("architecture", "a"), ("code_analysis", "c"),
       ("structure", "s"), ("contributors", "n"), ("dependencies", "d")]
      "deployment" (by decide) rfl⟩

/- ### C9: persistence (`writer_agent._save_documentation`) -/

/-- Model of POSIX `os.path.dirname`: everything up to the last slash, with
trailing slashes stripped unless the result is all slashes; `""` when the
path has no slash at all. -/
def pyDirname (p : String) : String :=
  match splitLastChar '/' p.toList with
  | none => ""
  | some (before, _) =>
    let head := before ++ ['/']
    if head.all (fun c => c == '/') then String.mk head
    else String.mk ((head.reverse.dropWhile (fun c => c == '/')).reverse)

/-- Model of `os.makedirs(path, exist_ok=True)`: creating directories for the
empty path raises `FileNotFoundError` (CPython fails in the underlying
`mkdir('')`; `exist_ok` does not help); any non-empty path succeeds. -/
def osMakedirs (path : String) : Except String Unit :=
  if path = "" then Except.error "FileNotFoundError" else Except.ok ()

/-- `_save_documentation`: convert the text to HTML when the destination ends
in `.html`, create the destination's directory, then write. The
markdown-to-HTML converter is an external collaborator passed as a
parameter; the successful result is the written path and content. -/
def saveDocumentation (md2html : String → String) (content outputPath : String) :
    Except String (String × String) :=
  let rendered :=
    if pyEndswith outputPath ".html" then md2html content else content
  match osMakedirs (pyDirname outputPath) with
  | Except.error e => Except.error e
  | Except.ok _ => Except.ok (outputPath, rendered)

/-- C9: saving to the CLI's default destination `documentation.md` always
fails: the path has no directory component, so `os.path.dirname` yields `""`
and `os.makedirs("")` raises `FileNotFoundError` before anything is
written — the claimed success does not hold for bare file names. -/
theorem save_default_output_fails (md2html : String → String)
    (content : String) :
    saveDocumentation md2html content "documentation.md"
      = Except.error "FileNotFoundError" := rfl
